import Mathlib

/-!
Verification of the Floodlight topology visualizer (`visualize2.py`).

The Python program builds an undirected `networkx` graph from two JSON
feeds (switch links and attached devices), classifies node types, indexes
switch adjacency with ports, enumerates all minimum-hop paths and selects
the ones of minimal telemetry cost.  This file gives a shallow embedding of
that code and proves/refutes the specification claims about it.

Modelling conventions:
* A `networkx.Graph` is modelled by an insertion-ordered node list
  (label to optional `type` attribute) and an insertion-ordered edge list,
  stored once per unordered pair in the orientation of first insertion.
* `G.edges(data=True)` iteration is reproduced faithfully: each edge is
  reported from the endpoint that occurs earlier in node insertion order.
* `fetch_json` is modelled by an oracle `String → Option Telemetry`;
  `none` models every failure mode (connection error, bad status, bad
  JSON), in which case Python's `fetch_json` returns `None`.
* A raised, uncaught Python exception is modelled by an `Option`-valued
  result being `none` (for `compute_path_cost`) or `FOVResult.error`.
-/

namespace SDN

/-- Edge attribute dictionary.  `none` models the key being absent from the
`networkx` attribute dict; switch-link insertion writes the first four keys,
host-link insertion writes `port`. -/
structure EdgeAttrs where
  src_port : Option Int := none
  dst_port : Option Int := none
  link_type : Option String := none
  direction : Option String := none
  port : Option Int := none
deriving DecidableEq, Repr

/-- The topology graph: insertion-ordered nodes (label, optional `type`
attribute) and insertion-ordered edges, each unordered pair stored once in
its first-insertion orientation. -/
structure Graph where
  nodes : List (String × Option String)
  edges : List (String × String × EdgeAttrs)
deriving DecidableEq, Repr

def emptyGraph : Graph := ⟨[], []⟩

/-- Look a label up in the node list; `some t` gives its attribute dict's
optional `type` value. -/
def lookupNode : List (String × Option String) → String → Option (Option String)
  | [], _ => none
  | (a, t) :: rest, l => if a = l then some t else lookupNode rest l

/-- `G.nodes[l].get("type")`: `none` both when the node is absent and when
it carries no `type` attribute. -/
def nodeType (g : Graph) (l : String) : Option String :=
  (lookupNode g.nodes l).join

def hasLabel (g : Graph) (l : String) : Bool :=
  g.nodes.any (fun p => p.1 = l)

/-- `G.add_node(l, type=t)`: update the attribute in place if the label
exists, otherwise append. -/
def addNodeList : List (String × Option String) → String → String → List (String × Option String)
  | [], l, t => [(l, some t)]
  | (a, t') :: rest, l, t =>
    if a = l then (a, some t) :: rest else (a, t') :: addNodeList rest l t

def addNode (g : Graph) (l t : String) : Graph :=
  { g with nodes := addNodeList g.nodes l t }

/-- `add_edge` inserts missing endpoints as attribute-less nodes. -/
def ensureNode (ns : List (String × Option String)) (l : String) : List (String × Option String) :=
  if ns.any (fun p => p.1 = l) then ns else ns ++ [(l, none)]

/-- `G.add_edge(u, v, **attrs)`: if the unordered pair is present, update
its attribute dict in place (keeping stored orientation and position),
otherwise append the new edge. -/
def updEdge : List (String × String × EdgeAttrs) → String → String → (EdgeAttrs → EdgeAttrs) →
    List (String × String × EdgeAttrs)
  | [], u, v, patch => [(u, v, patch {})]
  | (a, b, d) :: rest, u, v, patch =>
    if (a = u ∧ b = v) ∨ (a = v ∧ b = u) then (a, b, patch d) :: rest
    else (a, b, d) :: updEdge rest u v patch

def addSwitchEdge (g : Graph) (u v : String) (sp dp : Option Int) (lt dir : String) : Graph :=
  { nodes := ensureNode (ensureNode g.nodes u) v,
    edges := updEdge g.edges u v
      (fun d => { d with src_port := sp, dst_port := dp,
                         link_type := some lt, direction := some dir }) }

def addHostEdge (g : Graph) (u v : String) (p : Int) : Graph :=
  { nodes := ensureNode (ensureNode g.nodes u) v,
    edges := updEdge g.edges u v (fun d => { d with port := some p }) }

/-- `remap_dpid`. -/
def remap_dpid (dpidMap : List (String × String)) (dpid : String) : String :=
  match dpidMap.lookup dpid with
  | some l => l
  | none => "s" ++ dpid

/-- One record of the `/wm/topology/links/json` feed; `""` models a missing
or falsy switch identifier, `none` a missing port. -/
structure LinkRecord where
  src_switch : String
  dst_switch : String
  src_port : Option Int
  dst_port : Option Int
  link_type : String
  direction : String
deriving DecidableEq, Repr

/-- Loop body of `add_switch_links`. -/
def addLink (dpidMap : List (String × String)) (g : Graph) (link : LinkRecord) : Graph :=
  if link.src_switch = "" ∨ link.dst_switch = "" then g
  else
    let srcL := remap_dpid dpidMap link.src_switch
    let dstL := remap_dpid dpidMap link.dst_switch
    let g1 := addNode g srcL "switch"
    let g2 := addNode g1 dstL "switch"
    addSwitchEdge g2 srcL dstL link.src_port link.dst_port link.link_type link.direction

/-- `add_switch_links`: `none` models a failed or non-list fetch
(the method returns without touching the graph). -/
def add_switch_links (g : Graph) (dpidMap : List (String × String))
    (data : Option (List LinkRecord)) : Graph :=
  match data with
  | none => g
  | some links => links.foldl (addLink dpidMap) g

/-- One attachment point; `switch` and `switchDPID` keys may each be
absent (`none`) or empty. -/
structure AttachPoint where
  sw : Option String
  switchDPID : Option String
  port : Option Int
deriving DecidableEq, Repr

/-- Python's `ap.get("switch") or ap.get("switchDPID")`. -/
def apSwitchValue (a : AttachPoint) : Option String :=
  match a.sw with
  | some s => if s = "" then a.switchDPID else some s
  | none => a.switchDPID

/-- One device record (with the `mac` string-or-list already normalised to
a list, as the code does). -/
structure DeviceRecord where
  mac : List String
  ipv4 : List String
  attachmentPoint : List AttachPoint
deriving DecidableEq, Repr

/-- The mac / hUnknown fallback arm of the host-label resolution. -/
def macFallback (mac : List String) : String × String :=
  match mac with
  | m :: _ => ("h" ++ m, "host")
  | [] => ("hUnknown", "host")

/-- Host-side label and `type` resolution of `add_hosts` (the first IPv4,
when present and truthy, is checked against `stations_map`, then
`docker_hosts_map`, then used directly; otherwise the MAC fallback runs). -/
def hostLabelType (stationsMap dockerMap : List (String × String))
    (ip? : Option String) (mac : List String) : String × String :=
  match ip? with
  | some ip =>
    if ip = "" then macFallback mac
    else
      match stationsMap.lookup ip with
      | some l => (l, "station")
      | none =>
        match dockerMap.lookup ip with
        | some l => (l, "dockerhost")
        | none => ("h" ++ ip, "host")
  | none => macFallback mac

/-- Loop body of `add_hosts` for one device record. -/
def addDevice (stationsMap dockerMap dpidMap : List (String × String))
    (g : Graph) (dev : DeviceRecord) : Graph :=
  match dev.attachmentPoint with
  | [] => g
  | ap :: _ =>
    match apSwitchValue ap, ap.port with
    | some sw, some port =>
      if sw = "" then g
      else
        let lt := hostLabelType stationsMap dockerMap dev.ipv4.head? dev.mac
        let g1 := addNode g lt.1 lt.2
        let sL := remap_dpid dpidMap sw
        let g2 := addNode g1 sL "switch"
        addHostEdge g2 lt.1 sL port
    | _, _ => g

/-- The device feed envelope: an object with a `devices` key, a bare list,
or an unrecognised shape. -/
inductive DeviceFeed where
  | devicesObj (devices : List DeviceRecord)
  | bare (devices : List DeviceRecord)
  | badShape
deriving DecidableEq, Repr

/-- `add_hosts`: `none` models a failed fetch; an unrecognised envelope
drops the feed; both list shapes are folded over. -/
def add_hosts (g : Graph) (stationsMap dockerMap dpidMap : List (String × String))
    (data : Option DeviceFeed) : Graph :=
  match data with
  | none => g
  | some .badShape => g
  | some (.devicesObj ds) => ds.foldl (addDevice stationsMap dockerMap dpidMap) g
  | some (.bare ds) => ds.foldl (addDevice stationsMap dockerMap dpidMap) g

/-- Python's `str.startswith`, on the character sequences. -/
def startsWithL (s pre : String) : Bool :=
  pre.data.isPrefixOf s.data

/-- Per-node reclassification rule of `classify_nodes`: nodes whose current
type is outside {host, switch, unknown} are skipped; otherwise the label's
leading characters decide. -/
def classifyType (label : String) (t : Option String) : Option String :=
  let existing := t.getD "unknown"
  if ¬ (existing = "host" ∨ existing = "switch" ∨ existing = "unknown") then t
  else if startsWithL label "ap" then some "ap"
  else if startsWithL label "sta" then some "station"
  else if startsWithL label "d" then some "dockerhost"
  else if existing = "switch" then t
  else if existing = "host" then t
  else some "unknown"

/-- `classify_nodes`. -/
def classify_nodes (g : Graph) : Graph :=
  { g with nodes := g.nodes.map (fun p => (p.1, classifyType p.1 p.2)) }

/-- `build_topology`: link ingestion, then device ingestion, then
classification, all mutating the same pre-existing graph. -/
def build_topology (g : Graph) (dpidMap stationsMap dockerMap : List (String × String))
    (linkData : Option (List LinkRecord)) (devData : Option DeviceFeed) : Graph :=
  classify_nodes
    (add_hosts (add_switch_links g dpidMap linkData) stationsMap dockerMap dpidMap devData)

/-- Edges incident to `u` whose other endpoint is not yet `seen`, reported
from `u`'s side, in edge insertion order (this is `networkx` adjacency
order for `u`). -/
def edgesFrom (u : String) (seen : List String) :
    List (String × String × EdgeAttrs) → List (String × String × EdgeAttrs)
  | [] => []
  | (a, b, d) :: rest =>
    if a = u then
      (if b ∈ seen then edgesFrom u seen rest else (u, b, d) :: edgesFrom u seen rest)
    else if b = u then
      (if a ∈ seen then edgesFrom u seen rest else (u, a, d) :: edgesFrom u seen rest)
    else edgesFrom u seen rest

def edgesDataAux (es : List (String × String × EdgeAttrs)) :
    List String → List String → List (String × String × EdgeAttrs)
  | [], _ => []
  | u :: rest, seen => edgesFrom u seen es ++ edgesDataAux es rest (u :: seen)

/-- `G.edges(data=True)`: iterate nodes in insertion order and report each
edge once, from the endpoint that comes first in node insertion order. -/
def edgesData (g : Graph) : List (String × String × EdgeAttrs) :=
  edgesDataAux g.edges (g.nodes.map Prod.fst) []

/-- Dictionary of lists used by `build_switch_mapping`. -/
def mappingAt : List (String × List (String × Option Int)) → String → List (String × Option Int)
  | [], _ => []
  | (a, l) :: rest, k => if a = k then l else mappingAt rest k

def hasKey : List (String × List (String × Option Int)) → String → Bool
  | [], _ => false
  | (a, _) :: rest, k => a = k || hasKey rest k

def ensureKey (m : List (String × List (String × Option Int))) (k : String) :
    List (String × List (String × Option Int)) :=
  if hasKey m k then m else m ++ [(k, [])]

/-- `mapping[k].append(x)`: extend the list stored at key `k` (keys are
unique, so patching the first occurrence is the dict behaviour). -/
def appendAt : List (String × List (String × Option Int)) → String → (String × Option Int) →
    List (String × List (String × Option Int))
  | [], _, _ => []
  | (a, l) :: rest, k, x =>
    if a = k then (a, l ++ [x]) :: rest else (a, l) :: appendAt rest k x

/-- Loop body of `build_switch_mapping` for one reported edge. -/
def bsmStep (g : Graph) (m : List (String × List (String × Option Int)))
    (e : String × String × EdgeAttrs) : List (String × List (String × Option Int)) :=
  if nodeType g e.1 = some "switch" ∧ nodeType g e.2.1 = some "switch" then
    appendAt (appendAt (ensureKey (ensureKey m e.1) e.2.1) e.1 (e.2.1, e.2.2.src_port))
      e.2.1 (e.1, e.2.2.dst_port)
  else m

/-- `build_switch_mapping`. -/
def build_switch_mapping (g : Graph) : List (String × List (String × Option Int)) :=
  (edgesData g).foldl (bsmStep g) []

/-- Neighbours of `u`, scanning the edge store from both orientations. -/
def neighbors (g : Graph) (u : String) : List String :=
  g.edges.filterMap (fun e =>
    if e.1 = u then some e.2.1 else if e.2.1 = u then some e.1 else none)

/-- All simple paths from `u` to `dst` avoiding `visited`, with enough fuel
to cover every node once.  This (filtered to minimum length below) is the
semantic model of `networkx.all_shortest_paths`. -/
def simplePathsAux (g : Graph) : Nat → String → String → List String → List (List String)
  | 0, u, dst, _ => if u = dst then [[dst]] else []
  | Nat.succ fuel, u, dst, visited =>
    if u = dst then [[dst]]
    else
      (neighbors g u).flatMap (fun v =>
        if v ∈ u :: visited then []
        else (simplePathsAux g fuel v dst (u :: visited)).map (fun p => u :: p))

def allSimplePaths (g : Graph) (src dst : String) : List (List String) :=
  simplePathsAux g g.nodes.length src dst []

/-- Minimum length over a non-empty batch of candidate paths. -/
def minLenOf : List (List String) → Nat
  | [] => 0
  | p :: rest => (rest.map List.length).foldl min p.length

/-- `find_shortest_path`: `none` models the Python `None` returned both
when an endpoint label is missing and when `NetworkXNoPath` is caught;
otherwise the complete set of minimum-hop paths is returned. -/
def find_shortest_path (g : Graph) (src dst : String) : Option (List (List String)) :=
  if ¬ (hasLabel g src = true) then none
  else if ¬ (hasLabel g dst = true) then none
  else
    match allSimplePaths g src dst with
    | [] => none
    | p :: rest =>
      some ((p :: rest).filter (fun q => q.length = minLenOf (p :: rest)))

/-- One bandwidth sample, `bits-per-second-rx` / `-tx`. -/
structure Telemetry where
  rx : Int
  tx : Int
deriving DecidableEq, Repr

/-- `compute_path_cost` accumulator loop.  An oracle answer of `none`
models `fetch_json` returning `None`, on which the Python code raises
`TypeError` (`None[0]`); the raised exception is modelled by `none`. -/
def computeCostAux (oracle : String → Option Telemetry) (acc : Int) :
    List String → Option Int
  | [] => some acc
  | url :: rest =>
    match oracle url with
    | none => none
    | some t => computeCostAux oracle (acc + |t.rx - t.tx|) rest

/-- `compute_path_cost`. -/
def compute_path_cost (oracle : String → Option Telemetry) (urls : List String) : Option Int :=
  computeCostAux oracle 0 urls

/-- Python slice `path[1:-1]`. -/
def interiorOf (p : List String) : List String := (p.drop 1).dropLast

/-- URL built for the link from `a` to `b`, when `a` has a mapping entry
whose first matching neighbour is `b` (`str(None)` renders as "None"). -/
def urlFor (m : List (String × List (String × Option Int))) (a b : String) : Option String :=
  if hasKey m a then
    match (mappingAt m a).find? (fun x => x.1 = b) with
    | some x =>
      some ("http://localhost:8080/wm/statistics/bandwidth/" ++ a.drop 1 ++ "/" ++
        (match x.2 with | some p => toString p | none => "None") ++ "/json")
    | none => none
  else none

/-- The bandwidth URL list a candidate path generates: one lookup per
consecutive pair of interior nodes; a failed lookup only logs a warning. -/
def bandwidthUrls (m : List (String × List (String × Option Int))) (path : List String) :
    List String :=
  let sw := interiorOf path
  (sw.zip sw.tail).filterMap (fun ab => urlFor m ab.1 ab.2)

/-- Cost of one candidate path inside `find_optimal_path`. -/
def costOfPath (g : Graph) (oracle : String → Option Telemetry) (path : List String) :
    Option Int :=
  compute_path_cost oracle (bandwidthUrls (build_switch_mapping g) path)

/-- Selection loop of `find_optimal_path`: running minimum (`none` models
the initial `float('inf')`) and the list of paths achieving it; a `none`
cost models the `TypeError` propagating out. -/
def selectOptimalAux (cf : List String → Option Int) :
    List (List String) → Option Int → List (List String) → Option (List (List String))
  | [], _, acc => some acc
  | p :: rest, mc, acc =>
    match cf p with
    | none => none
    | some c =>
      match mc with
      | none => selectOptimalAux cf rest (some c) [p]
      | some m =>
        if c < m then selectOptimalAux cf rest (some c) [p]
        else if c = m then selectOptimalAux cf rest (some m) (acc ++ [p])
        else selectOptimalAux cf rest (some m) acc

/-- Result of `find_optimal_path`: the `["NO OPTIMAL PATH"]` sentinel, a
list of optimal paths, or an uncaught exception. -/
inductive FOVResult where
  | sentinel
  | paths (ps : List (List String))
  | error
deriving DecidableEq, Repr

/-- `find_optimal_path`. -/
def find_optimal_path (g : Graph) (oracle : String → Option Telemetry) (src dst : String) :
    FOVResult :=
  match find_shortest_path g src dst with
  | none => .sentinel
  | some ps =>
    match selectOptimalAux (costOfPath g oracle) ps none [] with
    | none => .error
    | some acc => .paths acc

/-- Adjacency relation induced by the edge store. -/
def Adj (g : Graph) (a b : String) : Prop :=
  b ∈ neighbors g a

instance (g : Graph) (a b : String) : Decidable (Adj g a b) :=
  inferInstanceAs (Decidable (b ∈ neighbors g a))

/-- `p` is a walk in `g` from `src` to `dst`. -/
def IsPath (g : Graph) (src dst : String) (p : List String) : Prop :=
  p.head? = some src ∧ p.getLast? = some dst ∧ p.Chain' (Adj g)

instance (g : Graph) (src dst : String) (p : List String) : Decidable (IsPath g src dst p) :=
  inferInstanceAs
    (Decidable (p.head? = some src ∧ p.getLast? = some dst ∧ p.Chain' (Adj g)))

/-- Well-formed graph: every edge endpoint is a node (guaranteed by
`add_edge`). -/
def WFG (g : Graph) : Prop :=
  ∀ e ∈ g.edges, hasLabel g e.1 = true ∧ hasLabel g e.2.1 = true

instance : DecidablePred WFG := fun g =>
  decidable_of_iff (∀ e ∈ g.edges, hasLabel g e.1 = true ∧ hasLabel g e.2.1 = true) Iff.rfl

/-- Sum of `abs(rx - tx)` over the successfully measured links (an
unmeasured link contributing zero), as the specification describes the
total path cost. -/
def measuredSum (oracle : String → Option Telemetry) (urls : List String) : Int :=
  (urls.map (fun u => match oracle u with | some t => |t.rx - t.tx| | none => 0)).sum

/-- Minimum cost over a batch of candidate paths under cost function `f`
(0 for an empty batch, where it is never used). -/
def minCostOf (f : List String → Int) : List (List String) → Int
  | [] => 0
  | p :: rest => (rest.map f).foldl min (f p)

/- Concrete feeds used by witnesses and counterexamples. -/

def linkA : LinkRecord := ⟨"1", "2", some 12, some 21, "internal", "bidirectional"⟩
def linkB : LinkRecord := ⟨"2", "3", some 23, some 32, "internal", "bidirectional"⟩
def linkC : LinkRecord := ⟨"3", "1", some 31, some 13, "internal", "bidirectional"⟩

def threeCycle : List LinkRecord := [linkA, linkB, linkC]

/-- Two links whose second record reuses the first record's source switch
as its destination: `s3` enters the node set after `s1`. -/
def crossGraph : Graph := add_switch_links emptyGraph [] (some [linkA, linkC])

def oneEdgeGraph : Graph := add_switch_links emptyGraph [] (some [linkA])

def squareLinks : List LinkRecord :=
  [⟨"1", "2", some 1, some 2, "internal", "bidirectional"⟩,
   ⟨"2", "4", some 3, some 4, "internal", "bidirectional"⟩,
   ⟨"1", "3", some 5, some 6, "internal", "bidirectional"⟩,
   ⟨"3", "4", some 7, some 8, "internal", "bidirectional"⟩]

def squareGraph : Graph := add_switch_links emptyGraph [] (some squareLinks)

/-- A switch whose remap table gives it a label starting with "d". -/
def dSwitchGraph : Graph :=
  add_switch_links emptyGraph [("7", "d7")]
    (some [⟨"7", "8", some 1, some 2, "internal", "bidirectional"⟩])

/-- An instance whose graph already holds a node before any build runs. -/
def ghostGraph : Graph := ⟨[("ghost", some "host")], []⟩

def staDevice : DeviceRecord := ⟨["aa:bb"], ["10.0.0.2"], [⟨some "9", none, some 4⟩]⟩

def staMap : List (String × String) := [("10.0.0.2", "sta2")]

/-! ## Claim C9: 3-cycle ingestion and idempotence -/

/-- C9: ingesting a link list forming a 3-cycle among switch identifiers
1, 2, 3 yields exactly 3 switch nodes and 3 edges, and ingesting the same
list again leaves the graph unchanged (in particular the node and edge
counts): re-inserting an edge for the same unordered pair overwrites its
attributes rather than accumulating parallel edges. -/
theorem claim_c9_three_cycle_idempotent :
    (add_switch_links emptyGraph [] (some threeCycle)).nodes.length = 3 ∧
    (add_switch_links emptyGraph [] (some threeCycle)).edges.length = 3 ∧
    (∀ p ∈ (add_switch_links emptyGraph [] (some threeCycle)).nodes, p.2 = some "switch") ∧
    add_switch_links (add_switch_links emptyGraph [] (some threeCycle)) [] (some threeCycle)
      = add_switch_links emptyGraph [] (some threeCycle) := by
  decide

/-! ## Claim C10: empty URL list and short paths cost zero -/

theorem zip_tail_eq_nil {α : Type} (sw : List α) (h : sw.length < 2) :
    sw.zip sw.tail = [] := by
  match sw with
  | [] => rfl
  | [a] => rfl
  | a :: b :: r => simp at h; omega

/-- C10: `compute_path_cost` applied to an empty URL list returns 0, and a
candidate path whose interior (the path minus its first and last node) has
fewer than two nodes generates no bandwidth URL at all, hence always has
total cost exactly 0. -/
theorem claim_c10_short_path_zero_cost :
    (∀ oracle : String → Option Telemetry, compute_path_cost oracle [] = some 0) ∧
    (∀ (m : List (String × List (String × Option Int))) (path : List String)
       (oracle : String → Option Telemetry), (interiorOf path).length < 2 →
       bandwidthUrls m path = [] ∧
       compute_path_cost oracle (bandwidthUrls m path) = some 0) := by
  constructor
  · intro oracle; rfl
  · intro m path oracle h
    have hu : bandwidthUrls m path = [] := by
      simp only [bandwidthUrls]
      rw [zip_tail_eq_nil _ h]
      rfl
    exact ⟨hu, by rw [hu]; rfl⟩

theorem claim_c10_short_path_zero_cost_witness :
    bandwidthUrls [] ["h1", "s1", "h2"] = [] ∧
    compute_path_cost (fun _ => none) (bandwidthUrls [] ["h1", "s1", "h2"]) = some 0 :=
  claim_c10_short_path_zero_cost.2 [] ["h1", "s1", "h2"] (fun _ => none) (by decide)

/-! ## Claim C1: telemetry fetch failure inside compute_path_cost -/

theorem computeCostAux_all_some (oracle : String → Option Telemetry) :
    ∀ (urls : List String) (acc : Int), (∀ u ∈ urls, (oracle u).isSome = true) →
    computeCostAux oracle acc urls = some (acc + measuredSum oracle urls) := by
  intro urls
  induction urls with
  | nil => intro acc _; simp [computeCostAux, measuredSum]
  | cons u rest ih =>
    intro acc h
    obtain ⟨t, ht⟩ := Option.isSome_iff_exists.mp (h u (by simp))
    have hrest : ∀ x ∈ rest, (oracle x).isSome = true := fun x hx => h x (by simp [hx])
    simp only [computeCostAux, ht]
    rw [ih _ hrest]
    simp only [measuredSum, List.map_cons, List.sum_cons, ht]
    congr 1
    omega

theorem computeCostAux_of_failure (oracle : String → Option Telemetry) :
    ∀ (urls : List String) (acc : Int), (∃ u ∈ urls, oracle u = none) →
    computeCostAux oracle acc urls = none := by
  intro urls
  induction urls with
  | nil => intro acc h; simp at h
  | cons u rest ih =>
    intro acc h
    cases hu : oracle u with
    | none => simp [computeCostAux, hu]
    | some t =>
      obtain ⟨x, hx, hxn⟩ := h
      rcases List.mem_cons.mp hx with rfl | hx'
      · exact absurd hxn (by simp [hu])
      · simp only [computeCostAux, hu]
        exact ih _ ⟨x, hx', hxn⟩

/-- C1 counterexample: with a single link whose telemetry fetch fails
(`fetch_json` returns `None`), the claim predicts a total cost of 0 (the
sum over the zero successfully measured links) and a non-terminating
computation, but `compute_path_cost` subscripts `None` and raises
`TypeError` (modelled by `none`): the result is not `some 0`. -/
theorem claim_c1_counterexample :
    compute_path_cost (fun _ => none) ["http://localhost:8080/u"] = none ∧
    ¬ compute_path_cost (fun _ => none) ["http://localhost:8080/u"] = some 0 := by
  constructor
  · rfl
  · intro h; exact Option.noConfusion h

/-- C1 amended: when every link's telemetry fetch succeeds, the path's
total cost is the sum of `abs(rx - tx)` over its links; but if any link's
fetch fails, `compute_path_cost` raises an uncaught `TypeError`
(subscripting `None`), so the failure is fatal to the computation instead
of contributing zero cost. -/
theorem claim_c1_amended (oracle : String → Option Telemetry) (urls : List String) :
    ((∀ u ∈ urls, (oracle u).isSome = true) →
       compute_path_cost oracle urls = some (measuredSum oracle urls)) ∧
    ((∃ u ∈ urls, oracle u = none) → compute_path_cost oracle urls = none) := by
  constructor
  · intro h
    have := computeCostAux_all_some oracle urls 0 h
    simpa [compute_path_cost] using this
  · intro h
    exact computeCostAux_of_failure oracle urls 0 h

theorem claim_c1_amended_witness :
    compute_path_cost (fun _ => some ⟨7, 3⟩) ["a", "b"]
      = some (measuredSum (fun _ => some ⟨7, 3⟩) ["a", "b"]) :=
  (claim_c1_amended (fun _ => some ⟨7, 3⟩) ["a", "b"]).1 (by decide)

/-! ## Node-lookup helper lemmas -/

theorem lookupNode_addNodeList_self :
    ∀ (ns : List (String × Option String)) (l t : String),
    lookupNode (addNodeList ns l t) l = some (some t) := by
  intro ns l t
  induction ns with
  | nil => simp [addNodeList, lookupNode]
  | cons p rest ih =>
    obtain ⟨a, t'⟩ := p
    by_cases h : a = l
    · simp [addNodeList, h, lookupNode]
    · simp [addNodeList, h, lookupNode, ih]

theorem lookupNode_addNodeList_other :
    ∀ (ns : List (String × Option String)) (l t l' : String), l' ≠ l →
    lookupNode (addNodeList ns l t) l' = lookupNode ns l' := by
  intro ns l t l' hne
  have hne' : ¬ l = l' := fun h => hne h.symm
  induction ns with
  | nil => simp [addNodeList, lookupNode, hne']
  | cons p rest ih =>
    obtain ⟨a, t'⟩ := p
    by_cases h : a = l
    · subst h
      simp [addNodeList, lookupNode, hne']
    · simp only [addNodeList, if_neg h, lookupNode]
      by_cases h' : a = l'
      · simp [h']
      · simp [h', ih]

theorem lookupNode_append_left :
    ∀ (ns ms : List (String × Option String)) (l : String) (τ : Option String),
    lookupNode ns l = some τ → lookupNode (ns ++ ms) l = some τ := by
  intro ns ms l τ h
  induction ns with
  | nil => simp [lookupNode] at h
  | cons p rest ih =>
    obtain ⟨a, t'⟩ := p
    by_cases ha : a = l
    · simpa [lookupNode, ha] using h
    · simp only [lookupNode, ha, if_false, List.cons_append] at h ⊢
      simpa [lookupNode, ha] using ih h

theorem lookupNode_ensureNode_of_some
    (ns : List (String × Option String)) (x l : String) (τ : Option String)
    (h : lookupNode ns l = some τ) : lookupNode (ensureNode ns x) l = some τ := by
  unfold ensureNode
  split
  · exact h
  · exact lookupNode_append_left ns _ l τ h

theorem lookupNode_map_classify :
    ∀ (ns : List (String × Option String)) (l : String),
    lookupNode (ns.map (fun p => (p.1, classifyType p.1 p.2))) l
      = (lookupNode ns l).map (fun t => classifyType l t) := by
  intro ns l
  induction ns with
  | nil => rfl
  | cons p rest ih =>
    obtain ⟨a, t⟩ := p
    by_cases h : a = l
    · subst h
      simp [lookupNode, ih]
    · simp [lookupNode, h, ih]

theorem classify_preserves_pinned (g : Graph) (l t : String)
    (h : nodeType g l = some t) (ht : t = "station" ∨ t = "dockerhost") :
    nodeType (classify_nodes g) l = some t := by
  simp only [nodeType] at h
  have hl : lookupNode g.nodes l = some (some t) := Option.join_eq_some.mp h
  simp only [nodeType, classify_nodes, lookupNode_map_classify, hl, Option.map_some']
  rcases ht with rfl | rfl <;> rfl

/-! ## Claim C5: switch nodes labelled "d…" and classify_nodes -/

/-- C5 counterexample: a switch node whose remapped label is "d7" (type
`switch` when `classify_nodes` runs, label starting with "d" and not with
"ap"/"sta") IS reclassified: its type afterwards is `dockerhost`, not
`switch` as the claim states. -/
theorem claim_c5_counterexample :
    nodeType dSwitchGraph "d7" = some "switch" ∧
    startsWithL "d7" "d" = true ∧ startsWithL "d7" "ap" = false ∧
    startsWithL "d7" "sta" = false ∧
    nodeType (classify_nodes dSwitchGraph) "d7" = some "dockerhost" ∧
    ¬ nodeType (classify_nodes dSwitchGraph) "d7" = some "switch" := by
  refine ⟨by decide, by decide, by decide, by decide, by decide, by decide⟩

/-- C5 amended: `classify_nodes` only leaves alone the types outside
{host, switch, unknown} (i.e. `station`/`dockerhost`); a node typed
`switch` whose label starts with "d" (and not with "ap" or "sta") is
reclassified to `dockerhost`. -/
theorem claim_c5_amended (g : Graph) (l : String)
    (hsw : nodeType g l = some "switch")
    (hap : startsWithL l "ap" = false) (hsta : startsWithL l "sta" = false)
    (hd : startsWithL l "d" = true) :
    nodeType (classify_nodes g) l = some "dockerhost" := by
  simp only [nodeType] at hsw
  have hl : lookupNode g.nodes l = some (some "switch") := Option.join_eq_some.mp hsw
  simp only [nodeType, classify_nodes, lookupNode_map_classify, hl, Option.map_some']
  simp [classifyType, hap, hsta, hd]

theorem claim_c5_amended_witness :
    nodeType (classify_nodes dSwitchGraph) "d7" = some "dockerhost" :=
  claim_c5_amended dSwitchGraph "d7" (by decide) (by decide) (by decide) (by decide)

/-! ## Claim C7: host label/type resolution precedence -/

/-- C7: for a device with a valid first attachment point, the host label
and type resolution follows the exact precedence: stationsMap match gives
(mapped, station); else dockerHostsMap match gives (mapped, dockerhost);
else a (truthy) IPv4 gives ("h"+ip, host); else a MAC gives ("h"+mac,
host); else the sentinel ("hUnknown", host). -/
theorem claim_c7_resolution_precedence (smap dmap : List (String × String))
    (mac : List String) :
    (∀ ip l, ip ≠ "" → smap.lookup ip = some l →
        hostLabelType smap dmap (some ip) mac = (l, "station")) ∧
    (∀ ip l, ip ≠ "" → smap.lookup ip = none → dmap.lookup ip = some l →
        hostLabelType smap dmap (some ip) mac = (l, "dockerhost")) ∧
    (∀ ip, ip ≠ "" → smap.lookup ip = none → dmap.lookup ip = none →
        hostLabelType smap dmap (some ip) mac = ("h" ++ ip, "host")) ∧
    (∀ m ms, mac = m :: ms → hostLabelType smap dmap none mac = ("h" ++ m, "host")) ∧
    (mac = [] → hostLabelType smap dmap none mac = ("hUnknown", "host")) := by
  refine ⟨?_, ?_, ?_, ?_, ?_⟩
  · intro ip l hip hs
    simp [hostLabelType, hip, hs]
  · intro ip l hip hs hd
    simp [hostLabelType, hip, hs, hd]
  · intro ip hip hs hd
    simp [hostLabelType, hip, hs, hd]
  · intro m ms hm
    subst hm
    simp [hostLabelType, macFallback]
  · intro hm
    subst hm
    simp [hostLabelType, macFallback]

theorem claim_c7_resolution_precedence_witness :
    hostLabelType staMap [] (some "10.0.0.2") ["aa:bb"] = ("sta2", "station") :=
  (claim_c7_resolution_precedence staMap [] ["aa:bb"]).1 "10.0.0.2" "sta2"
    (by decide) (by decide)

/-! ## Claim C8: build_topology does not rebuild from scratch -/

theorem exists_label_addNodeList (ns : List (String × Option String)) (x t l : String)
    (h : ∃ p ∈ ns, p.1 = l) : ∃ p ∈ addNodeList ns x t, p.1 = l := by
  induction ns with
  | nil => simp at h
  | cons q rest ih =>
    obtain ⟨a, t'⟩ := q
    obtain ⟨p, hp, hpl⟩ := h
    rcases List.mem_cons.mp hp with rfl | hp'
    · by_cases hax : a = x
      · exact ⟨(a, some t), by simp [addNodeList, hax], hpl⟩
      · exact ⟨(a, t'), by simp [addNodeList, hax], hpl⟩
    · by_cases hax : a = x
      · exact ⟨p, by simp [addNodeList, hax, hp'], hpl⟩
      · obtain ⟨p', hp'', hpl'⟩ := ih ⟨p, hp', hpl⟩
        exact ⟨p', by simp [addNodeList, hax, hp''], hpl'⟩

theorem exists_label_ensureNode (ns : List (String × Option String)) (x l : String)
    (h : ∃ p ∈ ns, p.1 = l) : ∃ p ∈ ensureNode ns x, p.1 = l := by
  obtain ⟨p, hp, hpl⟩ := h
  unfold ensureNode
  split
  · exact ⟨p, hp, hpl⟩
  · exact ⟨p, List.mem_append_left _ hp, hpl⟩

theorem exists_label_addLink (dpm : List (String × String)) (g : Graph) (lk : LinkRecord)
    (l : String) (h : ∃ p ∈ g.nodes, p.1 = l) : ∃ p ∈ (addLink dpm g lk).nodes, p.1 = l := by
  unfold addLink
  split
  · exact h
  · exact exists_label_ensureNode _ _ _ (exists_label_ensureNode _ _ _
      (exists_label_addNodeList _ _ _ _ (exists_label_addNodeList _ _ _ _ h)))

theorem exists_label_foldl_addLink (dpm : List (String × String)) (l : String) :
    ∀ (links : List LinkRecord) (g : Graph), (∃ p ∈ g.nodes, p.1 = l) →
    ∃ p ∈ (links.foldl (addLink dpm) g).nodes, p.1 = l := by
  intro links
  induction links with
  | nil => intro g h; exact h
  | cons lk rest ih =>
    intro g h
    exact ih _ (exists_label_addLink dpm g lk l h)

theorem exists_label_addDevice (smap dmap dpm : List (String × String)) (g : Graph)
    (dev : DeviceRecord) (l : String) (h : ∃ p ∈ g.nodes, p.1 = l) :
    ∃ p ∈ (addDevice smap dmap dpm g dev).nodes, p.1 = l := by
  obtain ⟨mac, ipv4, aps⟩ := dev
  unfold addDevice
  rcases aps with _ | ⟨ap, aps⟩
  · exact h
  · simp only
    rcases hsw : apSwitchValue ap with _ | sw <;> rcases hp : ap.port with _ | port <;>
        simp only [hsw, hp]
    · exact h
    · exact h
    · exact h
    · split
      · exact h
      · exact exists_label_ensureNode _ _ _ (exists_label_ensureNode _ _ _
          (exists_label_addNodeList _ _ _ _ (exists_label_addNodeList _ _ _ _ h)))

theorem exists_label_foldl_addDevice (smap dmap dpm : List (String × String)) (l : String) :
    ∀ (ds : List DeviceRecord) (g : Graph), (∃ p ∈ g.nodes, p.1 = l) →
    ∃ p ∈ (ds.foldl (addDevice smap dmap dpm) g).nodes, p.1 = l := by
  intro ds
  induction ds with
  | nil => intro g h; exact h
  | cons d rest ih =>
    intro g h
    exact ih _ (exists_label_addDevice smap dmap dpm g d l h)

theorem exists_label_classify (g : Graph) (l : String)
    (h : ∃ p ∈ g.nodes, p.1 = l) : ∃ p ∈ (classify_nodes g).nodes, p.1 = l := by
  obtain ⟨p, hp, hpl⟩ := h
  exact ⟨(p.1, classifyType p.1 p.2), List.mem_map_of_mem _ hp, hpl⟩

/-- C8 counterexample: two instances that differ only in graph content
present before the call (one holds a pre-existing "ghost" host node) give
different graphs from the same fetched feeds, so the result is not
determined solely by the feeds: the old node survives. -/
theorem claim_c8_counterexample :
    build_topology ghostGraph [] [] [] (some []) (some (.bare []))
      ≠ build_topology emptyGraph [] [] [] (some []) (some (.bare [])) ∧
    hasLabel (build_topology ghostGraph [] [] [] (some []) (some (.bare []))) "ghost"
      = true := by
  refine ⟨by decide, by decide⟩

/-- C8 amended: `build_topology` accumulates into whatever graph the
instance already holds — it never clears it: every node label present
before the call is still present after it (its type possibly rewritten),
so the result depends on prior graph content rather than only on the
fetched feeds. -/
theorem claim_c8_amended (g : Graph) (dpm smap dmap : List (String × String))
    (ld : Option (List LinkRecord)) (dd : Option DeviceFeed) (l : String)
    (h : hasLabel g l = true) :
    hasLabel (build_topology g dpm smap dmap ld dd) l = true := by
  rw [hasLabel, List.any_eq_true] at h ⊢
  simp only [decide_eq_true_eq] at h ⊢
  unfold build_topology
  apply exists_label_classify
  have h1 : ∃ p ∈ (add_switch_links g dpm ld).nodes, p.1 = l := by
    unfold add_switch_links
    rcases ld with _ | links
    · exact h
    · exact exists_label_foldl_addLink dpm l links g h
  unfold add_hosts
  rcases dd with _ | feed
  · exact h1
  · rcases feed with ds | ds | _
    · exact exists_label_foldl_addDevice smap dmap dpm l ds _ h1
    · exact exists_label_foldl_addDevice smap dmap dpm l ds _ h1
    · exact h1

theorem claim_c8_amended_witness :
    hasLabel (build_topology ghostGraph [] [] [] (some threeCycle) (some (.bare [staDevice])))
      "ghost" = true :=
  claim_c8_amended ghostGraph [] [] [] (some threeCycle) (some (.bare [staDevice]))
    "ghost" (by decide)

/-! ## Claim C6: stationsMap resolution survives classification -/

/-- C6: a device whose first IPv4 is a stationsMap key yields, through the
full build (link ingestion, device ingestion, classification), a node
labelled with the mapped value and typed `station` (provided that label is
not also the label of the device's attachment switch); and `classify_nodes`
never changes the type of any node already carrying `station` or
`dockerhost`, label-based inference notwithstanding. -/
theorem claim_c6_station_survives_build :
    (∀ (g : Graph) (l t : String), nodeType g l = some t →
       (t = "station" ∨ t = "dockerhost") → nodeType (classify_nodes g) l = some t) ∧
    (∀ (smap dmap dpm : List (String × String)) (links : List LinkRecord)
       (dev : DeviceRecord) (ap : AttachPoint) (aps : List AttachPoint)
       (sw : String) (port : Int) (ip label : String),
       dev.attachmentPoint = ap :: aps → apSwitchValue ap = some sw → sw ≠ "" →
       ap.port = some port → dev.ipv4.head? = some ip → ip ≠ "" →
       smap.lookup ip = some label → label ≠ remap_dpid dpm sw →
       nodeType (build_topology emptyGraph dpm smap dmap (some links)
         (some (.bare [dev]))) label = some "station") := by
  constructor
  · exact classify_preserves_pinned
  · intro smap dmap dpm links dev ap aps sw port ip label hap hsw hsw0 hport hip hip0 hlk hne
    have hstation :
        nodeType (addDevice smap dmap dpm (add_switch_links emptyGraph dpm (some links)) dev)
          label = some "station" := by
      unfold addDevice
      rw [hap, hip]
      simp only [hsw, hport, if_neg hsw0, hostLabelType, if_neg hip0, hlk]
      have h2 : lookupNode (addNodeList (addNodeList
          (add_switch_links emptyGraph dpm (some links)).nodes label "station")
          (remap_dpid dpm sw) "switch") label = some (some "station") := by
        rw [lookupNode_addNodeList_other _ _ _ _ hne]
        exact lookupNode_addNodeList_self _ _ _
      simp only [addHostEdge, addNode, nodeType]
      rw [lookupNode_ensureNode_of_some _ _ _ _ (lookupNode_ensureNode_of_some _ _ _ _ h2)]
      rfl
    have hb : build_topology emptyGraph dpm smap dmap (some links) (some (.bare [dev]))
        = classify_nodes (addDevice smap dmap dpm
            (add_switch_links emptyGraph dpm (some links)) dev) := rfl
    rw [hb]
    exact classify_preserves_pinned _ _ _ hstation (Or.inl rfl)

theorem claim_c6_station_survives_build_witness :
    nodeType (build_topology emptyGraph [] staMap [] (some threeCycle)
      (some (.bare [staDevice]))) "sta2" = some "station" :=
  claim_c6_station_survives_build.2 staMap [] [] threeCycle staDevice
    ⟨some "9", none, some 4⟩ [] "9" 4 "10.0.0.2" "sta2"
    rfl (by decide) (by decide) rfl rfl (by decide) (by decide) (by decide)

/-! ## Claim C2: adjacency index port attribution -/

theorem mem_mappingAt_appendAt (m : List (String × List (String × Option Int)))
    (k' : String) (y : String × Option Int) (k : String) (x : String × Option Int)
    (h : x ∈ mappingAt m k) : x ∈ mappingAt (appendAt m k' y) k := by
  induction m with
  | nil => simp [mappingAt] at h
  | cons p rest ih =>
    obtain ⟨a, l⟩ := p
    by_cases hak' : a = k'
    · rw [appendAt, if_pos hak']
      by_cases hak : a = k
      · rw [mappingAt, if_pos hak] at h
        rw [mappingAt, if_pos hak]
        exact List.mem_append_left _ h
      · rw [mappingAt, if_neg hak] at h
        rwa [mappingAt, if_neg hak]
    · rw [appendAt, if_neg hak']
      by_cases hak : a = k
      · rw [mappingAt, if_pos hak] at h
        rwa [mappingAt, if_pos hak]
      · rw [mappingAt, if_neg hak] at h
        rw [mappingAt, if_neg hak]
        exact ih h

theorem mem_mappingAt_append_left (m m2 : List (String × List (String × Option Int)))
    (k : String) (x : String × Option Int)
    (h : x ∈ mappingAt m k) : x ∈ mappingAt (m ++ m2) k := by
  induction m with
  | nil => simp [mappingAt] at h
  | cons p rest ih =>
    obtain ⟨a, l⟩ := p
    by_cases hak : a = k
    · simpa [mappingAt, hak] using by simpa [mappingAt, hak] using h
    · simp only [mappingAt, if_neg hak] at h
      simpa [mappingAt, hak] using ih h

theorem mem_mappingAt_ensureKey (m : List (String × List (String × Option Int)))
    (k' k : String) (x : String × Option Int)
    (h : x ∈ mappingAt m k) : x ∈ mappingAt (ensureKey m k') k := by
  unfold ensureKey
  split
  · exact h
  · exact mem_mappingAt_append_left m _ k x h

theorem hasKey_append (m m2 : List (String × List (String × Option Int))) (k : String) :
    hasKey (m ++ m2) k = (hasKey m k || hasKey m2 k) := by
  induction m with
  | nil => simp [hasKey]
  | cons p rest ih =>
    obtain ⟨a, l⟩ := p
    simp [hasKey, ih, Bool.or_assoc]

theorem hasKey_ensureKey_self (m : List (String × List (String × Option Int))) (k : String) :
    hasKey (ensureKey m k) k = true := by
  unfold ensureKey
  split
  · assumption
  · simp [hasKey_append, hasKey]

theorem hasKey_ensureKey_of (m : List (String × List (String × Option Int))) (k' k : String)
    (h : hasKey m k = true) : hasKey (ensureKey m k') k = true := by
  unfold ensureKey
  split
  · exact h
  · simp [hasKey_append, h]

theorem hasKey_appendAt (m : List (String × List (String × Option Int)))
    (k' : String) (y : String × Option Int) (k : String) :
    hasKey (appendAt m k' y) k = hasKey m k := by
  induction m with
  | nil => rfl
  | cons p rest ih =>
    obtain ⟨a, l⟩ := p
    by_cases hak' : a = k'
    · rw [appendAt, if_pos hak', hasKey, hasKey]
    · rw [appendAt, if_neg hak', hasKey, hasKey, ih]

theorem mem_appendAt_self (m : List (String × List (String × Option Int)))
    (k : String) (y : String × Option Int) (h : hasKey m k = true) :
    y ∈ mappingAt (appendAt m k y) k := by
  induction m with
  | nil => simp [hasKey] at h
  | cons p rest ih =>
    obtain ⟨a, l⟩ := p
    by_cases hak : a = k
    · rw [appendAt, if_pos hak, mappingAt, if_pos hak]
      exact List.mem_append_right _ (List.mem_singleton_self y)
    · rw [appendAt, if_neg hak, mappingAt, if_neg hak]
      rw [hasKey] at h
      rcases Bool.or_eq_true_iff.mp h with h' | h'
      · exact absurd (of_decide_eq_true h') hak
      · exact ih h'

theorem bsmStep_mono (g : Graph) (m : List (String × List (String × Option Int)))
    (e : String × String × EdgeAttrs) (k : String) (x : String × Option Int)
    (h : x ∈ mappingAt m k) : x ∈ mappingAt (bsmStep g m e) k := by
  unfold bsmStep
  split
  · exact mem_mappingAt_appendAt _ _ _ _ _ (mem_mappingAt_appendAt _ _ _ _ _
      (mem_mappingAt_ensureKey _ _ _ _ (mem_mappingAt_ensureKey _ _ _ _ h)))
  · exact h

theorem bsm_foldl_mono (g : Graph) :
    ∀ (es : List (String × String × EdgeAttrs)) (m : List (String × List (String × Option Int)))
    (k : String) (x : String × Option Int), x ∈ mappingAt m k →
    x ∈ mappingAt (es.foldl (bsmStep g) m) k := by
  intro es
  induction es with
  | nil => intro m k x h; exact h
  | cons e rest ih =>
    intro m k x h
    exact ih _ k x (bsmStep_mono g m e k x h)

theorem bsmStep_adds (g : Graph) (m : List (String × List (String × Option Int)))
    (u v : String) (d : EdgeAttrs)
    (h1 : nodeType g u = some "switch") (h2 : nodeType g v = some "switch") :
    (v, d.src_port) ∈ mappingAt (bsmStep g m (u, v, d)) u ∧
    (u, d.dst_port) ∈ mappingAt (bsmStep g m (u, v, d)) v := by
  unfold bsmStep
  rw [if_pos ⟨h1, h2⟩]
  constructor
  · apply mem_mappingAt_appendAt
    apply mem_appendAt_self
    exact hasKey_ensureKey_of _ _ _ (hasKey_ensureKey_self m u)
  · apply mem_appendAt_self
    rw [hasKey_appendAt]
    exact hasKey_ensureKey_self _ _

theorem bsm_foldl_adds (g : Graph) :
    ∀ (es : List (String × String × EdgeAttrs))
    (m : List (String × List (String × Option Int))) (u v : String) (d : EdgeAttrs),
    (u, v, d) ∈ es → nodeType g u = some "switch" → nodeType g v = some "switch" →
    (v, d.src_port) ∈ mappingAt (es.foldl (bsmStep g) m) u ∧
    (u, d.dst_port) ∈ mappingAt (es.foldl (bsmStep g) m) v := by
  intro es
  induction es with
  | nil => intro m u v d h _ _; simp at h
  | cons e rest ih =>
    intro m u v d h h1 h2
    rcases List.mem_cons.mp h with rfl | h'
    · have hstep := bsmStep_adds g m u v d h1 h2
      exact ⟨bsm_foldl_mono g rest _ _ _ hstep.1, bsm_foldl_mono g rest _ _ _ hstep.2⟩
    · exact ih _ u v d h' h1 h2

/-- C2 counterexample: in a graph built from the two link records
(1 to 2) then (3 to 1), the edge inserted as `add_edge("s3", "s1", ...)`
(src-side endpoint "s3", src_port 31, dst_port 13) is reported by edge
iteration from "s1"'s side, so `build_switch_mapping` maps "s3" to
("s1", 13) — the dst_port — and not to ("s1", 31) as the claim's
non-swapped src-side attribution states. -/
theorem claim_c2_counterexample :
    ("s3", "s1",
      (⟨some 31, some 13, some "internal", some "bidirectional", none⟩ : EdgeAttrs))
      ∈ crossGraph.edges ∧
    nodeType crossGraph "s3" = some "switch" ∧
    nodeType crossGraph "s1" = some "switch" ∧
    ¬ ("s1", some (31 : Int)) ∈ mappingAt (build_switch_mapping crossGraph) "s3" ∧
    ("s1", some (13 : Int)) ∈ mappingAt (build_switch_mapping crossGraph) "s3" := by
  refine ⟨by decide, by decide, by decide, by decide, by decide⟩

/-- C2 amended: for every edge as reported by graph edge iteration (which
reports each edge from its endpoint appearing earlier in node insertion
order — possibly the dst side of the original insertion), with both
endpoints typed `switch`, the index maps the reported first endpoint `u`
to (v, edge's src_port) and the reported second endpoint `v` to
(u, edge's dst_port); relative to the insertion orientation the two port
attributions may therefore be swapped. -/
theorem claim_c2_amended (g : Graph) (u v : String) (d : EdgeAttrs)
    (he : (u, v, d) ∈ edgesData g)
    (h1 : nodeType g u = some "switch") (h2 : nodeType g v = some "switch") :
    (v, d.src_port) ∈ mappingAt (build_switch_mapping g) u ∧
    (u, d.dst_port) ∈ mappingAt (build_switch_mapping g) v :=
  bsm_foldl_adds g (edgesData g) [] u v d he h1 h2

theorem claim_c2_amended_witness :
    ("s2", some (12 : Int)) ∈ mappingAt (build_switch_mapping oneEdgeGraph) "s1" ∧
    ("s1", some (21 : Int)) ∈ mappingAt (build_switch_mapping oneEdgeGraph) "s2" :=
  claim_c2_amended oneEdgeGraph "s1" "s2"
    ⟨some 12, some 21, some "internal", some "bidirectional", none⟩
    (by decide) (by decide) (by decide)

/-! ## Foldl-min lemmas (shared by the selector and the path finder) -/

theorem foldl_min_le_init {α : Type} [LinearOrder α] :
    ∀ (l : List α) (a : α), l.foldl min a ≤ a := by
  intro l
  induction l with
  | nil => intro a; exact le_refl a
  | cons b t ih =>
    intro a
    exact le_trans (ih (min a b)) (min_le_left a b)

theorem foldl_min_le_mem {α : Type} [LinearOrder α] :
    ∀ (l : List α) (a x : α), x ∈ l → l.foldl min a ≤ x := by
  intro l
  induction l with
  | nil => intro a x h; simp at h
  | cons b t ih =>
    intro a x h
    rcases List.mem_cons.mp h with rfl | h'
    · exact le_trans (foldl_min_le_init t (min a x)) (min_le_right a x)
    · exact ih (min a b) x h'

theorem foldl_min_eq_init_or_mem {α : Type} [LinearOrder α] :
    ∀ (l : List α) (a : α), l.foldl min a = a ∨ ∃ x ∈ l, l.foldl min a = x := by
  intro l
  induction l with
  | nil => intro a; exact Or.inl rfl
  | cons b t ih =>
    intro a
    rcases ih (min a b) with h | ⟨x, hx, hfx⟩
    · rcases le_total a b with hab | hba
      · left
        rw [List.foldl_cons, h, min_eq_left hab]
      · right
        exact ⟨b, by simp, by rw [List.foldl_cons, h, min_eq_right hba]⟩
    · right
      exact ⟨x, by simp [hx], by rw [List.foldl_cons]; exact hfx⟩

/-! ## Claim C3: minimum-cost selection over the tie set -/

theorem selAux_characterize (cf : List String → Option Int) (f : List String → Int) :
    ∀ (rest : List (List String)) (m : Int) (acc : List (List String)),
    (∀ p ∈ rest, cf p = some (f p)) →
    selectOptimalAux cf rest (some m) acc =
      some ((if (rest.map f).foldl min m = m then acc else []) ++
        rest.filter (fun p => f p = (rest.map f).foldl min m)) := by
  intro rest
  induction rest with
  | nil => intro m acc h; simp [selectOptimalAux]
  | cons p t ih =>
    intro m acc h
    have hp : cf p = some (f p) := h p (by simp)
    have ht : ∀ q ∈ t, cf q = some (f q) := fun q hq => h q (by simp [hq])
    simp only [selectOptimalAux, hp, List.map_cons, List.foldl_cons, List.filter_cons]
    by_cases h1 : f p < m
    · have e1 : min m (f p) = f p := min_eq_right (le_of_lt h1)
      rw [if_pos h1, ih (f p) [p] ht]
      simp only [e1]
      have hMle : List.foldl min (f p) (t.map f) ≤ f p := foldl_min_le_init _ _
      rw [if_neg (show ¬ List.foldl min (f p) (t.map f) = m by omega)]
      by_cases h2 : f p = List.foldl min (f p) (t.map f)
      · rw [if_pos h2.symm, if_pos (decide_eq_true h2)]
        rfl
      · have hne : ¬ (decide (f p = List.foldl min (f p) (t.map f)) = true) := by
          intro hx
          exact h2 (of_decide_eq_true hx)
        rw [if_neg (fun hx => h2 hx.symm), if_neg hne]
    · by_cases h2 : f p = m
      · have e1 : min m (f p) = m := by rw [h2, min_self]
        rw [if_neg h1, if_pos h2, ih m (acc ++ [p]) ht]
        simp only [e1]
        by_cases h3 : List.foldl min m (t.map f) = m
        · rw [if_pos h3, if_pos h3, if_pos (decide_eq_true (h2.trans h3.symm))]
          simp
        · have hne : ¬ (decide (f p = List.foldl min m (t.map f)) = true) := by
            intro hx
            have hfp := of_decide_eq_true hx
            omega
          rw [if_neg h3, if_neg h3, if_neg hne]
      · have e1 : min m (f p) = m := min_eq_left (by omega)
        rw [if_neg h1, if_neg h2, ih m acc ht]
        simp only [e1]
        have hMle : List.foldl min m (t.map f) ≤ m := foldl_min_le_init _ _
        have hne : ¬ (decide (f p = List.foldl min m (t.map f)) = true) := by
          intro hx
          have hfp := of_decide_eq_true hx
          omega
        rw [if_neg hne]

/-- C3: `find_optimal_path` returns exactly the cost-minimal subset of the
tied shortest paths, in iteration order: while scanning the tie set a
strictly lower cost replaces the running result set and an equal cost
appends to it, so the result is the filter of the candidates achieving the
minimum cost. -/
theorem claim_c3_min_cost_selection (g : Graph) (oracle : String → Option Telemetry)
    (src dst : String) (ps : List (List String)) (f : List String → Int)
    (hps : find_shortest_path g src dst = some ps)
    (hc : ∀ p ∈ ps, costOfPath g oracle p = some (f p)) :
    find_optimal_path g oracle src dst
      = .paths (ps.filter (fun p => f p = minCostOf f ps)) := by
  unfold find_optimal_path
  rw [hps]
  cases ps with
  | nil => rfl
  | cons p t =>
    have hp : costOfPath g oracle p = some (f p) := hc p (by simp)
    have ht : ∀ q ∈ t, costOfPath g oracle q = some (f q) :=
      fun q hq => hc q (by simp [hq])
    simp only [selectOptimalAux, hp]
    rw [selAux_characterize _ f t (f p) [p] ht]
    simp only [minCostOf, List.filter_cons]
    by_cases h2 : f p = List.foldl min (f p) (t.map f)
    · rw [if_pos h2.symm, if_pos (decide_eq_true h2)]
      rfl
    · have hne : ¬ (decide (f p = List.foldl min (f p) (t.map f)) = true) := by
        intro hx
        exact h2 (of_decide_eq_true hx)
      rw [if_neg (fun hx => h2 hx.symm), if_neg hne]
      rfl

theorem claim_c3_min_cost_selection_witness :
    find_optimal_path squareGraph (fun _ => some ⟨5, 3⟩) "s1" "s4"
      = .paths ([["s1", "s2", "s4"], ["s1", "s3", "s4"]].filter
          (fun p => (fun _ => (0 : Int)) p = minCostOf (fun _ => (0 : Int))
            [["s1", "s2", "s4"], ["s1", "s3", "s4"]])) :=
  claim_c3_min_cost_selection squareGraph (fun _ => some ⟨5, 3⟩) "s1" "s4"
    [["s1", "s2", "s4"], ["s1", "s3", "s4"]] (fun _ => (0 : Int))
    (by decide) (by decide)

/-! ## Claim C4: the path finder returns the complete minimum-hop tie set -/

theorem getLast?_mem_of_eq {α : Type} :
    ∀ (l : List α) (a : α), l.getLast? = some a → a ∈ l := by
  intro l
  induction l with
  | nil => intro a h; simp at h
  | cons b t ih =>
    intro a h
    cases t with
    | nil =>
      simp only [List.getLast?_singleton, Option.some_inj] at h
      simp [h]
    | cons c r =>
      rw [List.getLast?_cons_cons] at h
      exact List.mem_cons_of_mem b (ih a h)

theorem getLast?_append_right_of_some {α : Type} :
    ∀ (l1 l2 : List α) (a : α), l2.getLast? = some a → (l1 ++ l2).getLast? = some a := by
  intro l1
  induction l1 with
  | nil => intro l2 a h; simpa using h
  | cons b t ih =>
    intro l2 a h
    have h2 := ih l2 a h
    have hne : t ++ l2 ≠ [] := by
      intro h0
      rcases List.append_eq_nil.mp h0 with ⟨-, h3⟩
      rw [h3] at h
      simp at h
    cases h3 : t ++ l2 with
    | nil => exact absurd h3 hne
    | cons c r =>
      rw [List.cons_append, h3, List.getLast?_cons_cons, ← h3, h2]

theorem hasLabel_of_mem_neighbors (g : Graph) (hwf : WFG g) (u v : String)
    (h : v ∈ neighbors g u) : hasLabel g v = true := by
  unfold neighbors at h
  obtain ⟨e, he, hfe⟩ := List.mem_filterMap.mp h
  by_cases h1 : e.1 = u
  · rw [if_pos h1, Option.some_inj] at hfe
    rw [← hfe]
    exact (hwf e he).2
  · rw [if_neg h1] at hfe
    by_cases h2 : e.2.1 = u
    · rw [if_pos h2, Option.some_inj] at hfe
      rw [← hfe]
      exact (hwf e he).1
    · rw [if_neg h2] at hfe
      exact absurd hfe (Option.noConfusion)

theorem path_labels (g : Graph) (hwf : WFG g) :
    ∀ (p : List String) (u : String), hasLabel g u = true → (u :: p).Chain' (Adj g) →
    ∀ x ∈ u :: p, hasLabel g x = true := by
  intro p
  induction p with
  | nil =>
    intro u hu _ x hx
    rw [List.mem_singleton.mp hx]
    exact hu
  | cons v t ih =>
    intro u hu hch x hx
    have hadj : Adj g u v := (List.chain'_cons.mp hch).1
    have hv : hasLabel g v = true := hasLabel_of_mem_neighbors g hwf u v hadj
    have hch' : (v :: t).Chain' (Adj g) := (List.chain'_cons.mp hch).2
    rcases List.mem_cons.mp hx with rfl | hx'
    · exact hu
    · exact ih v hv hch' x hx'

theorem nodup_subset_length_le {α : Type} [DecidableEq α] (p l : List α)
    (hnd : p.Nodup) (hsub : ∀ x ∈ p, x ∈ l) : p.length ≤ l.length := by
  have h1 : p.toFinset.card = p.length := List.toFinset_card_of_nodup hnd
  have h2 : p.toFinset ⊆ l.toFinset := by
    intro x hx
    rw [List.mem_toFinset] at hx ⊢
    exact hsub x hx
  calc p.length = p.toFinset.card := h1.symm
    _ ≤ l.toFinset.card := Finset.card_le_card h2
    _ ≤ l.length := l.toFinset_card_le

theorem hasLabel_iff_mem_labels (g : Graph) (l : String) :
    hasLabel g l = true ↔ l ∈ g.nodes.map Prod.fst := by
  simp only [hasLabel, List.any_eq_true, decide_eq_true_eq, List.mem_map]

theorem spAux_sound (g : Graph) (dst : String) :
    ∀ (fuel : Nat) (u : String) (visited : List String) (q : List String),
    q ∈ simplePathsAux g fuel u dst visited →
    q.head? = some u ∧ q.getLast? = some dst ∧ q.Chain' (Adj g) := by
  intro fuel
  induction fuel with
  | zero =>
    intro u visited q hq
    simp only [simplePathsAux] at hq
    split at hq
    case isTrue h =>
      rw [List.mem_singleton] at hq
      subst hq
      exact ⟨by simp [h], rfl, List.chain'_singleton dst⟩
    case isFalse h => simp at hq
  | succ fuel ih =>
    intro u visited q hq
    simp only [simplePathsAux] at hq
    split at hq
    case isTrue h =>
      rw [List.mem_singleton] at hq
      subst hq
      exact ⟨by simp [h], rfl, List.chain'_singleton dst⟩
    case isFalse h =>
      rw [List.mem_flatMap] at hq
      obtain ⟨v, hv, hq'⟩ := hq
      split at hq'
      case isTrue => simp at hq'
      case isFalse hnv =>
        rw [List.mem_map] at hq'
        obtain ⟨q0, hq0, rfl⟩ := hq'
        obtain ⟨hh, hl, hc⟩ := ih v (u :: visited) q0 hq0
        have hq0ne : q0 ≠ [] := by
          intro h0
          rw [h0] at hh
          simp at hh
        refine ⟨rfl, ?_, ?_⟩
        · cases q0 with
          | nil => exact absurd rfl hq0ne
          | cons a t =>
            rw [List.getLast?_cons_cons]
            exact hl
        · rw [List.chain'_cons']
          refine ⟨?_, hc⟩
          intro b hb
          rw [hh, Option.mem_def, Option.some_inj] at hb
          rw [← hb]
          exact hv

theorem spAux_complete (g : Graph) (dst : String) :
    ∀ (fuel : Nat) (u : String) (visited : List String) (q : List String),
    q.head? = some u → q.getLast? = some dst → q.Chain' (Adj g) → q.Nodup →
    (∀ x ∈ q, x ∉ visited) → q.length ≤ fuel + 1 →
    q ∈ simplePathsAux g fuel u dst visited := by
  intro fuel
  induction fuel with
  | zero =>
    intro u visited q hh hl hc hnd hvis hlen
    cases q with
    | nil => simp at hh
    | cons a t =>
      have ha : a = u := by simpa using hh
      subst ha
      have ht : t = [] := by
        cases t with
        | nil => rfl
        | cons b t' => simp at hlen
      subst ht
      have hud : a = dst := by simpa using hl
      simp [simplePathsAux, hud]
  | succ fuel ih =>
    intro u visited q hh hl hc hnd hvis hlen
    cases q with
    | nil => simp at hh
    | cons a t =>
      have ha : a = u := by simpa using hh
      subst ha
      by_cases hud : a = dst
      · have ht : t = [] := by
          cases t with
          | nil => rfl
          | cons b t' =>
            exfalso
            have hlast : (b :: t').getLast? = some dst := by
              rw [List.getLast?_cons_cons] at hl
              exact hl
            have hdm : dst ∈ b :: t' := getLast?_mem_of_eq _ _ hlast
            rw [← hud] at hdm
            exact (List.nodup_cons.mp hnd).1 hdm
        subst ht
        simp [simplePathsAux, hud]
      · cases t with
        | nil =>
          exfalso
          exact hud (by simpa using hl)
        | cons v t' =>
          have hadj : Adj g a v := (List.chain'_cons.mp hc).1
          have hc' : (v :: t').Chain' (Adj g) := (List.chain'_cons.mp hc).2
          rw [List.getLast?_cons_cons] at hl
          rw [simplePathsAux, if_neg hud, List.mem_flatMap]
          refine ⟨v, hadj, ?_⟩
          have hvnin : ¬ v ∈ a :: visited := by
            intro hv
            rcases List.mem_cons.mp hv with hva | hv'
            · exact (List.nodup_cons.mp hnd).1 (hva ▸ List.mem_cons_self v t')
            · exact hvis v (by simp) hv'
          rw [if_neg hvnin, List.mem_map]
          refine ⟨v :: t', ?_, rfl⟩
          apply ih v (a :: visited) (v :: t') rfl
          · exact hl
          · exact hc'
          · exact (List.nodup_cons.mp hnd).2
          · intro x hx hxm
            rcases List.mem_cons.mp hxm with rfl | hxv
            · exact (List.nodup_cons.mp hnd).1 hx
            · exact hvis x (by simp [hx]) hxv
          · have := hlen
            simp only [List.length_cons] at this ⊢
            omega

theorem exists_dup_split {α : Type} :
    ∀ (q : List α), ¬ q.Nodup →
    ∃ (xs : List α) (a : α) (ys zs : List α), q = xs ++ a :: (ys ++ a :: zs) := by
  intro q
  induction q with
  | nil => intro h; exact absurd List.nodup_nil h
  | cons b t ih =>
    intro h
    by_cases hb : b ∈ t
    · obtain ⟨ys, zs, rfl⟩ := List.append_of_mem hb
      exact ⟨[], b, ys, zs, rfl⟩
    · have hnt : ¬ t.Nodup := fun hnd => h (List.nodup_cons.mpr ⟨hb, hnd⟩)
      obtain ⟨xs, a, ys, zs, rfl⟩ := ih hnt
      exact ⟨b :: xs, a, ys, zs, rfl⟩

theorem shortcut_path (g : Graph) (src dst : String) (xs ys zs : List String) (a : String)
    (h : IsPath g src dst (xs ++ a :: (ys ++ a :: zs))) :
    IsPath g src dst (xs ++ a :: zs) ∧
    (xs ++ a :: zs).length < (xs ++ a :: (ys ++ a :: zs)).length := by
  obtain ⟨hh, hl, hc⟩ := h
  constructor
  · refine ⟨?_, ?_, ?_⟩
    · cases xs with
      | nil => simpa using hh
      | cons x xs' => simpa using hh
    · have hsuffix : (a :: zs).getLast? = some dst := by
        have e : xs ++ a :: (ys ++ a :: zs) = (xs ++ a :: ys) ++ (a :: zs) := by simp
        rw [e] at hl
        cases hlz : (a :: zs).getLast? with
        | none => simp at hlz
        | some w =>
          rw [getLast?_append_right_of_some (xs ++ a :: ys) (a :: zs) w hlz] at hl
          exact hl
      exact getLast?_append_right_of_some xs (a :: zs) dst hsuffix
    · rw [List.chain'_append] at hc
      obtain ⟨hxs, hrest, hlink⟩ := hc
      have e2 : a :: (ys ++ a :: zs) = (a :: ys) ++ (a :: zs) := by simp
      rw [e2, List.chain'_append] at hrest
      obtain ⟨-, h2, -⟩ := hrest
      rw [List.chain'_append]
      refine ⟨hxs, h2, ?_⟩
      intro x hx y hy
      apply hlink x hx
      simpa using hy
  · simp only [List.length_append, List.length_cons]
    omega

theorem minLenOf_le (ps : List (List String)) (p : List String) (hp : p ∈ ps) :
    minLenOf ps ≤ p.length := by
  cases ps with
  | nil => simp at hp
  | cons p0 rest =>
    rcases List.mem_cons.mp hp with rfl | hp'
    · exact foldl_min_le_init _ _
    · exact foldl_min_le_mem _ _ _ (List.mem_map_of_mem List.length hp')

theorem minLenOf_attained (ps : List (List String)) (h : ps ≠ []) :
    ∃ q ∈ ps, q.length = minLenOf ps := by
  cases ps with
  | nil => exact absurd rfl h
  | cons p0 rest =>
    rcases foldl_min_eq_init_or_mem (rest.map List.length) p0.length with h1 | ⟨x, hx, hfx⟩
    · exact ⟨p0, by simp, h1.symm⟩
    · obtain ⟨q, hq, rfl⟩ := List.mem_map.mp hx
      exact ⟨q, by simp [hq], hfx.symm⟩

/-- C4: for two labels present in the graph, `find_shortest_path` returns
the complete tie set of minimum-hop paths — every globally minimal path is
in the result, and everything in the result is a path of that same minimal
length; when no path connects them, it returns the empty outcome (`None`)
after catching `NetworkXNoPath`, without raising. -/
theorem claim_c4_complete_tie_set (g : Graph) (src dst : String) (hwf : WFG g)
    (hsrc : hasLabel g src = true) (hdst : hasLabel g dst = true) :
    (∀ p, IsPath g src dst p → (∀ q, IsPath g src dst q → p.length ≤ q.length) →
       ∃ ps, find_shortest_path g src dst = some ps ∧ p ∈ ps ∧
         ∀ q ∈ ps, IsPath g src dst q ∧ q.length = p.length) ∧
    ((¬ ∃ q, IsPath g src dst q) → find_shortest_path g src dst = none) := by
  have hsound : ∀ q ∈ allSimplePaths g src dst, IsPath g src dst q := by
    intro q hq
    obtain ⟨h1, h2, h3⟩ := spAux_sound g dst g.nodes.length src [] q hq
    exact ⟨h1, h2, h3⟩
  constructor
  · intro p hp hmin
    have hnd : p.Nodup := by
      by_contra hnd
      obtain ⟨xs, a, ys, zs, rfl⟩ := exists_dup_split _ hnd
      obtain ⟨hq, hlt⟩ := shortcut_path g src dst xs ys zs a hp
      exact absurd (hmin _ hq) (by omega)
    obtain ⟨hh, hl, hc⟩ := hp
    have hmemall : ∀ x ∈ p, hasLabel g x = true := by
      cases p with
      | nil => simp at hh
      | cons a t =>
        have ha : a = src := by simpa using hh
        subst ha
        exact path_labels g hwf t a hsrc hc
    have hplen : p.length ≤ g.nodes.length := by
      have hb := nodup_subset_length_le p (g.nodes.map Prod.fst) hnd
        (fun x hx => (hasLabel_iff_mem_labels g x).mp (hmemall x hx))
      simpa using hb
    have hmem : p ∈ allSimplePaths g src dst :=
      spAux_complete g dst g.nodes.length src [] p hh hl hc hnd (by simp) (by omega)
    unfold find_shortest_path
    rw [if_neg (by simp [hsrc]), if_neg (by simp [hdst])]
    cases hall : allSimplePaths g src dst with
    | nil =>
      rw [hall] at hmem
      simp at hmem
    | cons p0 rest =>
      rw [hall] at hmem
      have hminlen : p.length = minLenOf (p0 :: rest) := by
        have h1 : minLenOf (p0 :: rest) ≤ p.length := minLenOf_le _ p hmem
        have h2 : p.length ≤ minLenOf (p0 :: rest) := by
          obtain ⟨q, hq, hql⟩ := minLenOf_attained (p0 :: rest) (by simp)
          have hqpath : IsPath g src dst q := hsound q (hall ▸ hq)
          calc p.length ≤ q.length := hmin q hqpath
            _ = minLenOf (p0 :: rest) := hql
        omega
      refine ⟨_, rfl, ?_, ?_⟩
      · rw [List.mem_filter]
        exact ⟨hmem, decide_eq_true hminlen⟩
      · intro q hq
        rw [List.mem_filter] at hq
        obtain ⟨hqmem, hqlen⟩ := hq
        refine ⟨hsound q (hall ▸ hqmem), ?_⟩
        rw [of_decide_eq_true hqlen, hminlen]
  · intro hnone
    unfold find_shortest_path
    rw [if_neg (by simp [hsrc]), if_neg (by simp [hdst])]
    cases hall : allSimplePaths g src dst with
    | nil => rfl
    | cons p0 rest =>
      exfalso
      exact hnone ⟨p0, hsound p0 (hall ▸ List.mem_cons_self p0 rest)⟩

theorem claim_c4_complete_tie_set_witness :
    ∃ ps, find_shortest_path oneEdgeGraph "s1" "s2" = some ps ∧
      ["s1", "s2"] ∈ ps ∧
      ∀ q ∈ ps, IsPath oneEdgeGraph "s1" "s2" q ∧
        q.length = (["s1", "s2"] : List String).length := by
  have hmin : ∀ q, IsPath oneEdgeGraph "s1" "s2" q →
      (["s1", "s2"] : List String).length ≤ q.length := by
    intro q hq
    obtain ⟨hh, hl, -⟩ := hq
    cases q with
    | nil => simp at hh
    | cons a t =>
      cases t with
      | nil =>
        exfalso
        have ha : a = "s1" := by simpa using hh
        have hb : a = "s2" := by simpa using hl
        rw [ha] at hb
        exact absurd hb (by decide)
      | cons b t' => simp
  exact (claim_c4_complete_tie_set oneEdgeGraph "s1" "s2" (by decide) (by decide)
    (by decide)).1 ["s1", "s2"] ⟨rfl, rfl, List.chain'_pair.mpr (by decide)⟩ hmin

end SDN
